import Mathlib

/-!
Verification of the dog-breeds data pipeline (`scripts/update-breeds.js`).

Strings are modelled as `List Char`.  Each JavaScript function used by the
claims is translated to an executable Lean definition:

* `parseBreedListWikitext` — wikitext extractor (the bullet-link regular
  expression is compiled by hand into the deterministic scanner `matchAt` /
  `scan`; the regex is deterministic because the lazy groups are bounded by
  excluded characters).
* `parseWikidataResults` — SPARQL-result parser, including a model of
  `decodeURIComponent` (percent-decoding with strict UTF-8 validation,
  `none` standing for a thrown `URIError`) and of the JavaScript coercion
  of `undefined` to the string "undefined".
* `findInWikidata`, `mergeBreedData` — join and sort.  The host collation
  `String.prototype.localeCompare` is passed as an explicit comparator
  parameter `lc`.
* `resolveRedirectBatch`, `resolveRedirects` — alias resolution, with the
  network response payloads passed as explicit arguments.
* `mainModel` — the orchestrator `main`, with the three fallible fetch
  results passed as `Except` values and the write capability observed in
  the second component of the result (the list of written artifacts).
-/

abbrev Str := List Char

/-- The whitespace class used by the source's regex `\s` and by
`String.prototype.trim`: ECMA-262 WhiteSpace (tab, VT, FF, space, NBSP,
BOM and every Unicode Space_Separator code point: U+1680, U+2000–U+200A,
U+202F, U+205F, U+3000) plus LineTerminator (LF, CR, LS U+2028,
PS U+2029). -/
def jsSpace (c : Char) : Bool :=
  let n := c.toNat
  if n = 0x09 ∨ n = 0x0A ∨ n = 0x0B ∨ n = 0x0C ∨ n = 0x0D ∨ n = 0x20
      ∨ n = 0xA0 ∨ n = 0x1680 ∨ (0x2000 ≤ n ∧ n ≤ 0x200A)
      ∨ n = 0x2028 ∨ n = 0x2029 ∨ n = 0x202F ∨ n = 0x205F ∨ n = 0x3000
      ∨ n = 0xFEFF then true else false

/-- Model of `String.prototype.trim`. -/
def jsTrim (l : Str) : Str :=
  ((l.dropWhile jsSpace).reverse.dropWhile jsSpace).reverse

/-- Helper for `String.prototype.indexOf`: position of the first occurrence
of `pat`, counting from `i`. -/
def subIndexAux (pat : Str) : Str → Nat → Option Nat
  | [], i => if pat.isPrefixOf ([] : Str) then some i else none
  | c :: rest, i =>
    if pat.isPrefixOf (c :: rest) then some i else subIndexAux pat rest (i + 1)

/-- Model of `String.prototype.indexOf`, with `none` for the JavaScript result `-1`. -/
def subIndex (l pat : Str) : Option Nat := subIndexAux pat l 0

/-- Whether `pat` occurs in `l` as a contiguous substring. -/
def containsSub (l pat : Str) : Bool := (subIndex l pat).isSome

/-- Lookup in an insertion-ordered association list (JavaScript `Map.get`;
`Map.has` is `(alookup ..).isSome`). -/
def alookup {β : Type} : List (Str × β) → Str → Option β
  | [], _ => none
  | (k', v) :: rest, k => if k' = k then some v else alookup rest k

/-- JavaScript `Map.set`: overwrite in place if present, else append. -/
def assocSet {β : Type} : List (Str × β) → Str → β → List (Str × β)
  | [], k, v => [(k, v)]
  | (k', v') :: rest, k, v =>
    if k' = k then (k, v) :: rest else (k', v') :: assocSet rest k v

/-- Model of `if (!m.has(k)) m.set(k, v)` — the extractor's duplicate policy. -/
def setIfAbsent {β : Type} (m : List (Str × β)) (k : Str) (v : β) :
    List (Str × β) :=
  if (alookup m k).isSome then m else m ++ [(k, v)]

/-- Build a map from a list of entries with the first occurrence of each key
winning (source lines 61–63). -/
def buildFirstWins {β : Type} (es : List (Str × β)) : List (Str × β) :=
  es.foldl (fun m e => setIfAbsent m e.1 e.2) []

/-- The boundary marker searched by `wikitext.indexOf('== Extinct')`. -/
def extinctMarker : Str := "== Extinct".toList

/-- Character class `[^\]|]` of the regex's first capture group. -/
def linkChar (c : Char) : Bool :=
  if c = ']' then false else if c = '|' then false else true

/-- Character class `[^\]]` of the regex's second capture group. -/
def notRBracket (c : Char) : Bool := if c = ']' then false else true

/-- Expect two consecutive copies of `c` (for `\[\[` and `]]`). -/
def expect2 (c : Char) : Str → Option Str
  | a :: b :: rest => if a = c ∧ b = c then some rest else none
  | _ => none

/-- Attempt to match `\*\s*\[\[([^\]|]+?)(?:\|([^\]]+?))?]]` at the head of
`l`.  On success returns the two capture groups and the remainder of the
text after the match.  The lazy quantifiers are deterministic here: group 1
must stop at the first `]` or `|`, group 2 at the first `]`. -/
def matchAt (l : Str) : Option ((Str × Option Str) × Str) :=
  match l with
  | [] => none
  | c :: rest =>
    if c = '*' then
      match expect2 '[' (rest.dropWhile jsSpace) with
      | none => none
      | some rest2 =>
        let r := rest2.takeWhile linkChar
        if r = [] then none
        else
          match rest2.dropWhile linkChar with
          | [] => none
          | d :: rest3 =>
            if d = '|' then
              let s := rest3.takeWhile notRBracket
              if s = [] then none
              else
                match rest3.dropWhile notRBracket with
                | e :: f :: rest7 =>
                  if e = ']' ∧ f = ']' then some ((r, some s), rest7) else none
                | _ => none
            else if d = ']' then
              match rest3 with
              | e :: rest4 => if e = ']' then some ((r, none), rest4) else none
              | [] => none
            else none
    else none

/-- Fuelled scanner emulating `matchAll`: try a match at every position,
resuming after the end of each successful match.  With `fuel` at least the
length of the text the fuel never runs out, since every step consumes at
least one character. -/
def scanF : Nat → Str → List (Str × Option Str)
  | 0, _ => []
  | _ + 1, [] => []
  | fuel + 1, c :: cs =>
    match matchAt (c :: cs) with
    | some (g, rest) => g :: scanF fuel rest
    | none => scanF fuel cs

/-- All matches of the bullet-link regex, in order (`matchAll`). -/
def scan (l : Str) : List (Str × Option Str) := scanF l.length l

/-- Model of `match[2] || match[1]` — the display name before trimming. -/
def displayOf (g1 : Str) (g2 : Option Str) : Str :=
  match g2 with
  | some s => if s = [] then g1 else s
  | none => g1

/-- The extractor `parseBreedListWikitext` (source lines 50–67): cut the text at the first
occurrence of the extinct marker when that occurrence has positive index
(`extinctIndex > 0`), scan for bullet links, trim, and build the map with
the first occurrence of each key winning. -/
def parseBreedListWikitext (wikitext : Str) : List (Str × Str) :=
  let extantText :=
    match subIndex wikitext extinctMarker with
    | some i => if 0 < i then wikitext.take i else wikitext
    | none => wikitext
  buildFirstWins
    ((scan extantText).map fun g => (jsTrim g.1, jsTrim (displayOf g.1 g.2)))

example :
    parseBreedListWikitext "* [[Pug]]\n* [[Akita (dog)|Akita]]".toList =
      [("Pug".toList, "Pug".toList), ("Akita (dog)".toList, "Akita".toList)] := by
  decide

example :
    parseBreedListWikitext "* [[Pug]]\n== Extinct ==\n* [[Alaunt]]".toList =
      [("Pug".toList, "Pug".toList)] := by decide

/-- A hexadecimal digit of a percent escape (`decodeURIComponent` accepts
both cases). -/
def hexDigit (c : Char) : Option Nat :=
  let n := c.toNat
  if 48 ≤ n ∧ n ≤ 57 then some (n - 48)
  else if 65 ≤ n ∧ n ≤ 70 then some (n - 55)
  else if 97 ≤ n ∧ n ≤ 102 then some (n - 87)
  else none

/-- A unit of a percent-encoded string: a literal character or one decoded
byte of a `%XX` escape. -/
inductive UriTok where
  | plain : Char → UriTok
  | byte : Nat → UriTok
deriving DecidableEq

/-- First phase of `decodeURIComponent`: turn every `%XX` escape into a
byte; a `%` not followed by two hexadecimal digits is a `URIError`
(`none`). -/
def uriTokens : Str → Option (List UriTok)
  | [] => some []
  | c :: rest =>
    if c = '%' then
      match rest with
      | h1 :: h2 :: rest2 => do
        let a ← hexDigit h1
        let b ← hexDigit h2
        let ts ← uriTokens rest2
        some (UriTok.byte (16 * a + b) :: ts)
      | _ => none
    else (uriTokens rest).map (UriTok.plain c :: ·)

/-- A UTF-8 continuation byte. -/
def isCont (b : Nat) : Bool := decide (0x80 ≤ b ∧ b ≤ 0xBF)

/-- Second phase of `decodeURIComponent`: strict UTF-8 decoding of the byte
runs produced by percent escapes, rejecting overlong forms, surrogates and
out-of-range code points (`none` standing for a thrown `URIError`). -/
def utf8Decode : List UriTok → Option Str
  | [] => some []
  | .plain c :: ts => (utf8Decode ts).map (c :: ·)
  | .byte b :: ts =>
    if b < 0x80 then (utf8Decode ts).map (Char.ofNat b :: ·)
    else if 0xC2 ≤ b ∧ b ≤ 0xDF then
      match ts with
      | .byte b2 :: ts2 =>
        if isCont b2 then
          (utf8Decode ts2).map (Char.ofNat ((b - 0xC0) * 64 + (b2 - 0x80)) :: ·)
        else none
      | _ => none
    else if 0xE0 ≤ b ∧ b ≤ 0xEF then
      match ts with
      | .byte b2 :: .byte b3 :: ts3 =>
        if (if b = 0xE0 then decide (0xA0 ≤ b2 ∧ b2 ≤ 0xBF)
            else if b = 0xED then decide (0x80 ≤ b2 ∧ b2 ≤ 0x9F)
            else isCont b2) && isCont b3 then
          (utf8Decode ts3).map
            (Char.ofNat ((b - 0xE0) * 4096 + (b2 - 0x80) * 64 + (b3 - 0x80)) :: ·)
        else none
      | _ => none
    else if 0xF0 ≤ b ∧ b ≤ 0xF4 then
      match ts with
      | .byte b2 :: .byte b3 :: .byte b4 :: ts4 =>
        if (if b = 0xF0 then decide (0x90 ≤ b2 ∧ b2 ≤ 0xBF)
            else if b = 0xF4 then decide (0x80 ≤ b2 ∧ b2 ≤ 0x8F)
            else isCont b2) && isCont b3 && isCont b4 then
          (utf8Decode ts4).map
            (Char.ofNat ((b - 0xF0) * 262144 + (b2 - 0x80) * 4096
              + (b3 - 0x80) * 64 + (b4 - 0x80)) :: ·)
        else none
      | _ => none
    else none

/-- Model of `decodeURIComponent`; `none` models a thrown `URIError`. -/
def percentDecode (l : Str) : Option Str := (uriTokens l).bind utf8Decode

/-- The separator of `articleUrl.split('/wiki/')`. -/
def wikiSep : Str := "/wiki/".toList

/-- Fuelled splitter for `String.prototype.split` with a non-empty string
separator; fuel at least `l.length + 1` always suffices. -/
def splitF (sep : Str) : Nat → Str → List Str
  | 0, l => [l]
  | fuel + 1, l =>
    match subIndex l sep with
    | none => [l]
    | some i => l.take i :: splitF sep fuel (l.drop (i + sep.length))

/-- Model of `String.prototype.split` with a non-empty string separator. -/
def jsSplit (l sep : Str) : List Str := splitF sep (l.length + 1) l

/-- The map of `.replaceAll('_', ' ')`, which acts characterwise. -/
def usToSpace (c : Char) : Char := if c = '_' then ' ' else c

/-- The string JavaScript produces when `undefined` is coerced to `String`
(as happens in `decodeURIComponent(articleUrl.split('/wiki/')[1])` when the
URL has no `/wiki/` segment). -/
def undefinedStr : Str := "undefined".toList

/-- A row of the SPARQL `results.bindings` array: `article.value`,
`breedLabel.value`, and the optional `origins?.value` and `image?.value`. -/
structure RawRecord where
  article : Str
  breedLabel : Str
  origins : Option Str
  image : Option Str
deriving DecidableEq

/-- The output record shape `{name, origin, imageURL}` (used both for the
Wikidata map values and for the merged output). -/
structure BreedRecord where
  name : Str
  origin : Str
  imageURL : Str
deriving DecidableEq

/-- Key derivation `decodeURIComponent(articleUrl.split('/wiki/')[1]).replaceAll('_', ' ')`
(source line 80).  A missing segment is coerced by JavaScript to the string
"undefined"; a malformed percent escape throws (`none`). -/
def deriveKey (r : RawRecord) : Option Str :=
  match (jsSplit r.article wikiSep).get? 1 with
  | none => some (undefinedStr.map usToSpace)
  | some seg => (percentDecode seg).map (fun d => d.map usToSpace)

/-- The pattern and replacement of `.replace('http://', 'https://')`. -/
def httpPat : Str := "http://".toList

/-- The replacement string of `.replace('http://', 'https://')`. -/
def httpsRep : Str := "https://".toList

/-- Model of `String.prototype.replace` with a plain string pattern: replace the
first occurrence only. -/
def jsReplaceFirst (l pat rep : Str) : Str :=
  match subIndex l pat with
  | none => l
  | some i => l.take i ++ rep ++ l.drop (i + pat.length)

/-- The value stored for one SPARQL row (source lines 83–89). -/
def entryOf (r : RawRecord) : BreedRecord :=
  { name := r.breedLabel
    origin := r.origins.getD []
    imageURL := jsReplaceFirst (r.image.getD []) httpPat httpsRep }

/-- The loop of `parseWikidataResults`: derive each key and `Map.set` the
entry (later records overwrite earlier ones with the same key). -/
def parseWikidataGo (m : List (Str × BreedRecord)) :
    List RawRecord → Option (List (Str × BreedRecord))
  | [] => some m
  | r :: rs =>
    match deriveKey r with
    | none => none
    | some k => parseWikidataGo (assocSet m k (entryOf r)) rs

/-- The parser `parseWikidataResults` (source lines 75–93); `none` models the
propagation of a `URIError` thrown by `decodeURIComponent`. -/
def parseWikidataResults (bs : List RawRecord) :
    Option (List (Str × BreedRecord)) :=
  parseWikidataGo [] bs

example :
    parseWikidataResults
        [{ article := "https://en.wikipedia.org/wiki/Afghan_Hound".toList,
           breedLabel := "Afghan Hound".toList,
           origins := some "Afghanistan".toList,
           image := some "http://x/a.jpg".toList }] =
      some [("Afghan Hound".toList,
        { name := "Afghan Hound".toList, origin := "Afghanistan".toList,
          imageURL := "https://x/a.jpg".toList })] := by decide

example :
    parseWikidataResults
        [{ article := "https://example.org/nope".toList,
           breedLabel := "X".toList, origins := none, image := none }] =
      some [("undefined".toList,
        { name := "X".toList, origin := [], imageURL := [] })] := by decide

example : percentDecode "Catal%C3%A0".toList = some "Català".toList := by decide

/-- The lookup `findInWikidata` (source lines 104–115).  Note the truthiness test
`if (resolved && wikidataBreeds.has(resolved))`: an empty-string alias is
falsy in JavaScript and is therefore never followed. -/
def findInWikidata (articleTitle : Str)
    (wikidataBreeds : List (Str × BreedRecord))
    (redirectMap : List (Str × Str)) : Option BreedRecord :=
  match alookup wikidataBreeds articleTitle with
  | some e => some e
  | none =>
    match alookup redirectMap articleTitle with
    | some resolved =>
      if resolved = [] then none else alookup wikidataBreeds resolved
    | none => none

/-- Insert into a list already ordered by `le` (comparator form of the
library sort used by `merged.sort(...)`). -/
def insertLe {α : Type} (le : α → α → Bool) (x : α) : List α → List α
  | [] => [x]
  | y :: ys => if le x y then x :: y :: ys else y :: insertLe le x ys

/-- Comparison sort in terms of `insertLe`; for a consistent comparator it
produces the sorted permutation that `Array.prototype.sort` guarantees. -/
def sortLe {α : Type} (le : α → α → Bool) : List α → List α
  | [] => []
  | x :: xs => insertLe le x (sortLe le xs)

/-- The merge `mergeBreedData` (source lines 125–150): one record per extracted
entry, name from the extraction, origin/image from `findInWikidata` or
empty, then `merged.sort((a, b) => a.name.localeCompare(b.name))`.  The
host collation `localeCompare` is the explicit parameter `lc` (negative /
zero / positive integer result).  The source also collects the unmatched
display names for a diagnostic message; that list does not affect the
return value and is omitted. -/
def mergeBreedData (wikipediaBreeds : List (Str × Str))
    (wikidataBreeds : List (Str × BreedRecord))
    (redirectMap : List (Str × Str)) (lc : Str → Str → Int) :
    List BreedRecord :=
  let merged := wikipediaBreeds.map fun p =>
    match findInWikidata p.1 wikidataBreeds redirectMap with
    | some e => { name := p.2, origin := e.origin, imageURL := e.imageURL }
    | none => { name := p.2, origin := [], imageURL := [] }
  sortLe (fun a b => decide (lc a.name b.name ≤ 0)) merged

/-- Build a `Map` from an optional response list of `{from, to}` pairs
(`data.query.normalized` / `data.query.redirects`; an absent field is
falsy and yields an empty map). -/
def buildPairs (o : Option (List (Str × Str))) : List (Str × Str) :=
  (o.getD []).foldl (fun m p => assocSet m p.1 p.2) []

/-- The per-title body of `resolveRedirectBatch`'s loop: apply the
normalization map if it has the title, then the redirects map if it has
the normalized form. -/
def resolveTitle (normalized redirects : List (Str × Str)) (title : Str) :
    Str :=
  let r1 := match alookup normalized title with
    | some t => t
    | none => title
  match alookup redirects r1 with
  | some t => t
  | none => r1

/-- One iteration of `resolveRedirectBatch`'s loop: resolve the title and
`result.set(title, resolved)` only when the resolved form differs. -/
def stepResolve (normalized redirects : List (Str × Str))
    (result : List (Str × Str)) (title : Str) : List (Str × Str) :=
  if resolveTitle normalized redirects title ≠ title
  then assocSet result title (resolveTitle normalized redirects title)
  else result

/-- The resolver `resolveRedirectBatch` (source lines 170–213) after the network fetch:
the response's optional `normalized` and `redirects` lists are passed in,
and a title is recorded in the result only when its resolved form differs
from the original. -/
def resolveRedirectBatch (batch : List Str)
    (normalizedList redirectsList : Option (List (Str × Str))) :
    List (Str × Str) :=
  let normalized := buildPairs normalizedList
  let redirects := buildPairs redirectsList
  batch.foldl (stepResolve normalized redirects) []

/-- Fuelled chunking loop of `resolveRedirects`:
`for (let i = 0; i < titles.length; i += 50) batches.push(titles.slice(i, i + 50))`.
Fuel at least the length of the list always suffices. -/
def chunkF {α : Type} : Nat → List α → List (List α)
  | 0, _ => []
  | _ + 1, [] => []
  | fuel + 1, x :: xs => (x :: xs).take 50 :: chunkF fuel ((x :: xs).drop 50)

/-- The consecutive chunks of at most 50 titles built by
`resolveRedirects`. -/
def chunk50 {α : Type} (l : List α) : List (List α) := chunkF l.length l

/-- Merge one batch result into the accumulated redirect map
(`redirectMap.set(from, to)` over the batch result's entries). -/
def mergeInto (acc m : List (Str × Str)) : List (Str × Str) :=
  m.foldl (fun a p => assocSet a p.1 p.2) acc

/-- The resolver `resolveRedirects` (source lines 215–233): chunk the titles, issue one
batch call per chunk (`respond` stands for
`batch => resolveRedirectBatch(batch, fetch)`), and merge the results. -/
def resolveRedirects (titles : List Str)
    (respond : List Str → List (Str × Str)) : List (Str × Str) :=
  let batches := chunk50 titles
  let results := batches.map respond
  results.foldl mergeInto []

/-- Success test for `Except`, under a local name. -/
def isOkE {ε α : Type} : Except ε α → Bool
  | .ok _ => true
  | .error _ => false

/-- Model of `Promise.all` over a list of fallible calls: all results in order, or
the first failure. -/
def mapME {ε α β : Type} (f : α → Except ε β) : List α → Except ε (List β)
  | [] => .ok []
  | x :: xs =>
    match f x with
    | .error e => .error e
    | .ok y =>
      match mapME f xs with
      | .error e => .error e
      | .ok ys => .ok (y :: ys)

/-- The resolver `resolveRedirects` with fallible batch calls: `Promise.all` over the
chunks — the first rejection propagates and partial results are
discarded. -/
def resolveRedirectsE {ε : Type} (titles : List Str)
    (respond : List Str → Except ε (List (Str × Str))) :
    Except ε (List (Str × Str)) :=
  match mapME respond (chunk50 titles) with
  | .ok results => .ok (results.foldl mergeInto [])
  | .error e => .error e

/-- The orchestrator `main` (exported form, `src/unnamed/part_002` lines
277–293): await the two source fetches, await redirect resolution over the
extracted keys, merge, then call the write capability exactly once with
the merged list.  The fetch results arrive as `Except` values and each
`await` of a rejected promise propagates the error; the second component
lists the artifacts passed to `writeFunction` (empty when the run
aborts). -/
def mainModel {ε : Type} (wikipediaRes : Except ε (List (Str × Str)))
    (wikidataRes : Except ε (List (Str × BreedRecord)))
    (respond : List Str → Except ε (List (Str × Str)))
    (lc : Str → Str → Int) :
    Except ε (List BreedRecord) × List (List BreedRecord) :=
  match wikipediaRes with
  | .error e => (.error e, [])
  | .ok wikipediaBreeds =>
    match wikidataRes with
    | .error e => (.error e, [])
    | .ok wikidataBreeds =>
      match resolveRedirectsE (wikipediaBreeds.map Prod.fst) respond with
      | .error e => (.error e, [])
      | .ok redirectMap =>
        let breeds := mergeBreedData wikipediaBreeds wikidataBreeds redirectMap lc
        (.ok breeds, [breeds])

/-- The record the specification prescribes for one extracted entry
(claim C1 as amended): name from the extraction; origin and image from
`metadata[key]`, else from `metadata[aliases[key]]` when that alias
exists, is non-empty and is a metadata key, else empty. -/
def specMergeRecord (wikidataBreeds : List (Str × BreedRecord))
    (redirectMap : List (Str × Str)) (p : Str × Str) : BreedRecord :=
  match alookup wikidataBreeds p.1 with
  | some e => { name := p.2, origin := e.origin, imageURL := e.imageURL }
  | none =>
    match alookup redirectMap p.1 with
    | some a =>
      if a ≠ [] then
        match alookup wikidataBreeds a with
        | some e => { name := p.2, origin := e.origin, imageURL := e.imageURL }
        | none => { name := p.2, origin := [], imageURL := [] }
      else { name := p.2, origin := [], imageURL := [] }
    | none => { name := p.2, origin := [], imageURL := [] }

/-- Lexicographic comparison of character lists, used as one concrete
comparator satisfying the totality property of a collation. -/
def compareStr : Str → Str → Ordering
  | [], [] => .eq
  | [], _ :: _ => .lt
  | _ :: _, [] => .gt
  | a :: as_, b :: bs =>
    if a < b then .lt else if b < a then .gt else compareStr as_ bs

/-- A concrete comparator with `localeCompare`'s interface (negative /
zero / positive), used by witnesses. -/
def lcByte (a b : Str) : Int :=
  match compareStr a b with
  | .lt => -1
  | .eq => 0
  | .gt => 1

example :
    mergeBreedData
        [("Pug".toList, "Pug".toList), ("Akita (dog)".toList, "Akita".toList)]
        [("Pug".toList,
          { name := "Pug".toList, origin := "China".toList,
            imageURL := "https://x/p.jpg".toList })]
        [] lcByte =
      [{ name := "Akita".toList, origin := [], imageURL := [] },
       { name := "Pug".toList, origin := "China".toList,
         imageURL := "https://x/p.jpg".toList }] := by decide

example :
    resolveRedirectBatch ["A".toList, "B".toList]
        (some [("A".toList, "A2".toList)]) (some [("A2".toList, "A3".toList)]) =
      [("A".toList, "A3".toList)] := by decide

/-! Section: Association-list and sorting lemmas -/

theorem alookup_assocSet {β : Type} (m : List (Str × β)) (k : Str) (v : β)
    (k' : Str) :
    alookup (assocSet m k v) k' = if k = k' then some v else alookup m k' := by
  induction m with
  | nil =>
    by_cases h : k = k' <;> simp [assocSet, alookup, h]
  | cons kv rest ih =>
    obtain ⟨k₀, v₀⟩ := kv
    by_cases h0 : k₀ = k
    · subst h0
      by_cases h : k₀ = k'
      · subst h
        simp [assocSet, alookup]
      · simp [assocSet, alookup, h]
    · by_cases h1 : k₀ = k'
      · subst h1
        have hk : ¬ k = k₀ := fun hh => h0 hh.symm
        simp [assocSet, alookup, h0, hk]
      · simp [assocSet, alookup, h0, h1, ih]

theorem insertLe_perm {α : Type} (le : α → α → Bool) (x : α) (l : List α) :
    (insertLe le x l).Perm (x :: l) := by
  induction l with
  | nil => exact List.Perm.refl _
  | cons y ys ih =>
    by_cases h : le x y
    · simp [insertLe, h]
    · simp only [insertLe, h, if_neg, Bool.false_eq_true, if_false]
      exact (ih.cons y).trans (List.Perm.swap x y ys)

theorem sortLe_perm {α : Type} (le : α → α → Bool) (l : List α) :
    (sortLe le l).Perm l := by
  induction l with
  | nil => exact List.Perm.refl _
  | cons x xs ih =>
    exact (insertLe_perm le x (sortLe le xs)).trans (ih.cons x)

theorem insertLe_head {α : Type} (le : α → α → Bool) (x : α) (l : List α) :
    (insertLe le x l).head? = some x ∨ (insertLe le x l).head? = l.head? := by
  cases l with
  | nil => exact Or.inl rfl
  | cons y ys =>
    by_cases h : le x y <;> simp [insertLe, h]

theorem chain'_insertLe {α : Type} (le : α → α → Bool)
    (htot : ∀ a b, le a b = true ∨ le b a = true) (x : α) (l : List α)
    (h : List.Chain' (fun a b => le a b = true) l) :
    List.Chain' (fun a b => le a b = true) (insertLe le x l) := by
  induction l with
  | nil => simp [insertLe]
  | cons y ys ih =>
    rw [List.chain'_cons'] at h
    by_cases hxy : le x y = true
    · simp only [insertLe, hxy, if_true]
      rw [List.chain'_cons']
      refine ⟨?_, List.chain'_cons'.mpr h⟩
      intro b hb
      simp at hb
      exact hb ▸ hxy
    · have hyx : le y x = true := (htot x y).resolve_left hxy
      simp only [insertLe, hxy, Bool.false_eq_true, if_false]
      rw [List.chain'_cons']
      refine ⟨?_, ih h.2⟩
      intro b hb
      rcases insertLe_head le x ys with hh | hh
      · rw [hh] at hb
        simp at hb
        exact hb ▸ hyx
      · rw [hh] at hb
        exact h.1 b hb

theorem chain'_sortLe {α : Type} (le : α → α → Bool)
    (htot : ∀ a b, le a b = true ∨ le b a = true) (l : List α) :
    List.Chain' (fun a b => le a b = true) (sortLe le l) := by
  induction l with
  | nil => simp [sortLe]
  | cons x xs ih => exact chain'_insertLe le htot x (sortLe le xs) ih

theorem compareStr_gt_flip :
    ∀ a b : Str, compareStr a b = .gt → compareStr b a = .lt := by
  intro a
  induction a with
  | nil =>
    intro b hb
    cases b <;> simp [compareStr] at hb
  | cons c cs ih =>
    intro b hb
    cases b with
    | nil => simp [compareStr]
    | cons d ds =>
      simp only [compareStr] at hb ⊢
      by_cases h1 : c < d
      · simp [h1] at hb
      · by_cases h2 : d < c
        · simp [h2]
        · simp [h1, h2] at hb ⊢
          exact ih ds hb

theorem lcByte_total : ∀ a b : Str, lcByte a b ≤ 0 ∨ lcByte b a ≤ 0 := by
  intro a b
  unfold lcByte
  cases h : compareStr a b with
  | lt => left; simp
  | eq => left; simp
  | gt =>
    right
    rw [compareStr_gt_flip a b h]
    simp

/-! Section: Claims C1 and C2 — the merge engine -/

theorem mergeRecord_eq_spec (wd : List (Str × BreedRecord))
    (rm : List (Str × Str)) (p : Str × Str) :
    (match findInWikidata p.1 wd rm with
      | some e =>
        ({ name := p.2, origin := e.origin, imageURL := e.imageURL } : BreedRecord)
      | none => { name := p.2, origin := [], imageURL := [] }) =
    specMergeRecord wd rm p := by
  unfold findInWikidata specMergeRecord
  cases h1 : alookup wd p.1 with
  | some e => simp
  | none =>
    simp only []
    cases h2 : alookup rm p.1 with
    | none => simp
    | some a =>
      by_cases h3 : a = []
      · simp [h3]
      · simp [h3]

/-- Claim C1 (amended): for every extracted map, metadata map and alias
map, `mergeBreedData` returns exactly one record per extracted entry — a
permutation of the per-entry records — and each record follows the rule:
name is the extraction's display name (never the metadata label); origin
and imageURL come from `metadata[key]` if present, otherwise from
`metadata[aliases[key]]` if that alias exists, is non-empty and is itself
a metadata key, otherwise both are empty. -/
theorem mergeBreedData_perm_spec (wp : List (Str × Str))
    (wd : List (Str × BreedRecord)) (rm : List (Str × Str))
    (lc : Str → Str → Int) :
    (mergeBreedData wp wd rm lc).Perm (wp.map (specMergeRecord wd rm)) ∧
    (mergeBreedData wp wd rm lc).length = wp.length := by
  have hmap : (wp.map fun p =>
      (match findInWikidata p.1 wd rm with
        | some e =>
          ({ name := p.2, origin := e.origin, imageURL := e.imageURL } : BreedRecord)
        | none => { name := p.2, origin := [], imageURL := [] })) =
      wp.map (specMergeRecord wd rm) := by
    apply List.map_congr_left
    intro p _
    exact mergeRecord_eq_spec wd rm p
  have hperm : (mergeBreedData wp wd rm lc).Perm (wp.map (specMergeRecord wd rm)) := by
    unfold mergeBreedData
    rw [hmap]
    exact sortLe_perm _ _
  refine ⟨hperm, ?_⟩
  rw [hperm.length_eq, List.length_map]

/-- Claim C1, counterexample to the claim as frozen: with extracted entry
`"A"`, alias map sending `"A"` to the empty string, and the empty string
itself a metadata key with origin `"O"` and image `"I"`, the claim says the
record is populated from that metadata entry, but the code's truthiness
test `if (resolved && ...)` skips the empty-string alias and produces the
empty-field record instead. -/
theorem mergeBreedData_empty_alias_cx :
    alookup [("A".toList, ([] : Str))] "A".toList = some [] ∧
    (alookup [(([] : Str),
      ({ name := "L".toList, origin := "O".toList, imageURL := "I".toList } :
        BreedRecord))] ([] : Str)).isSome = true ∧
    mergeBreedData [("A".toList, "A".toList)]
        [(([] : Str),
          { name := "L".toList, origin := "O".toList, imageURL := "I".toList })]
        [("A".toList, ([] : Str))] lcByte =
      [{ name := "A".toList, origin := [], imageURL := [] }] ∧
    mergeBreedData [("A".toList, "A".toList)]
        [(([] : Str),
          { name := "L".toList, origin := "O".toList, imageURL := "I".toList })]
        [("A".toList, ([] : Str))] lcByte ≠
      [{ name := "A".toList, origin := "O".toList, imageURL := "I".toList }] := by
  decide

/-- Claim C2: for every input and every collation comparator `lc` that is
total (the contract of `localeCompare`: for any two strings at least one
compares less-or-equal), the sequence returned by `mergeBreedData` is
non-decreasing on the `name` field under that comparator. -/
theorem mergeBreedData_sorted (wp : List (Str × Str))
    (wd : List (Str × BreedRecord)) (rm : List (Str × Str))
    (lc : Str → Str → Int)
    (htot : ∀ a b : Str, lc a b ≤ 0 ∨ lc b a ≤ 0) :
    List.Chain' (fun a b : BreedRecord => lc a.name b.name ≤ 0)
      (mergeBreedData wp wd rm lc) := by
  unfold mergeBreedData
  have h := chain'_sortLe (fun a b : BreedRecord => decide (lc a.name b.name ≤ 0))
    (fun a b => by
      rcases htot a.name b.name with h | h
      · left; exact decide_eq_true h
      · right; exact decide_eq_true h)
    (wp.map fun p =>
      match findInWikidata p.1 wd rm with
      | some e =>
        ({ name := p.2, origin := e.origin, imageURL := e.imageURL } : BreedRecord)
      | none => { name := p.2, origin := [], imageURL := [] })
  exact List.Chain'.imp (fun a b hab => of_decide_eq_true hab) h

/-- Witness for C2 at a concrete unsorted input under the concrete total
comparator `lcByte`. -/
theorem mergeBreedData_sorted_witness :
    List.Chain' (fun a b : BreedRecord => lcByte a.name b.name ≤ 0)
      (mergeBreedData
        [("B".toList, "Bb".toList), ("A".toList, "Aa".toList),
         ("C".toList, "Aa".toList)]
        [] [] lcByte) :=
  mergeBreedData_sorted _ _ _ lcByte lcByte_total

/-! Section: Claims C3 and C5 — the extractor -/

/-- Claim C3, evaluation at the failing input.  The input starts with the
boundary marker (it occurs at index 0), the only link construct occurs
after the marker, and yet its key appears in the output: the guard
`extinctIndex > 0` treats a marker at index 0 like an absent marker,
contradicting the function's own documentation ("Only includes breeds from
the 'Extant' section"). -/
theorem parseBreedList_extinct_at_zero :
    containsSub "== Extinct ==\n* [[Foo]]".toList extinctMarker = true ∧
    subIndex "== Extinct ==\n* [[Foo]]".toList extinctMarker = some 0 ∧
    parseBreedListWikitext "== Extinct ==\n* [[Foo]]".toList =
      [("Foo".toList, "Foo".toList)] := by
  decide

theorem takeWhile_append_stop {p : Char → Bool} (xs : Str) (y : Char)
    (ys : Str) (hall : ∀ c ∈ xs, p c = true) (hy : p y = false) :
    (xs ++ y :: ys).takeWhile p = xs ∧ (xs ++ y :: ys).dropWhile p = y :: ys := by
  induction xs with
  | nil => simp [List.takeWhile_cons, List.dropWhile_cons, hy]
  | cons x xs ih =>
    have hx : p x = true := hall x (by simp)
    have ih' := ih fun c hc => hall c (by simp [hc])
    simp [List.takeWhile_cons, List.dropWhile_cons, hx, ih'.1, ih'.2]

theorem matchAt_bare (X : Str) (hne : X ≠ [])
    (hX : ∀ c ∈ X, linkChar c = true) :
    matchAt ('*' :: ' ' :: '[' :: '[' :: (X ++ [']', ']'])) =
      some ((X, none), []) := by
  have hsp : jsSpace ' ' = true := by decide
  have hlb : jsSpace '[' = false := by decide
  have hrb : linkChar ']' = false := by decide
  have htd := takeWhile_append_stop (p := linkChar) X ']' [']'] hX hrb
  simp [matchAt, List.dropWhile_cons, hsp, hlb, expect2, htd.1, htd.2, hne]

theorem matchAt_piped (X Y : Str) (hXne : X ≠ [])
    (hX : ∀ c ∈ X, linkChar c = true) (hYne : Y ≠ [])
    (hY : ∀ c ∈ Y, notRBracket c = true) :
    matchAt ('*' :: ' ' :: '[' :: '[' :: (X ++ '|' :: (Y ++ [']', ']']))) =
      some ((X, some Y), []) := by
  have hsp : jsSpace ' ' = true := by decide
  have hlb : jsSpace '[' = false := by decide
  have hpipe : linkChar '|' = false := by decide
  have hrb : notRBracket ']' = false := by decide
  have htd := takeWhile_append_stop (p := linkChar) X '|' (Y ++ [']', ']']) hX hpipe
  have hts := takeWhile_append_stop (p := notRBracket) Y ']' [']'] hY hrb
  simp [matchAt, List.dropWhile_cons, hsp, hlb, expect2, htd.1, htd.2,
    hts.1, hts.2, hXne, hYne]

theorem scanF_nil (f : Nat) : scanF f [] = [] := by
  cases f <;> rfl

theorem scan_single_bare (X : Str) (hne : X ≠ [])
    (hX : ∀ c ∈ X, linkChar c = true) :
    scan ('*' :: ' ' :: '[' :: '[' :: (X ++ [']', ']'])) = [(X, none)] := by
  unfold scan
  rw [List.length_cons]
  simp only [scanF]
  rw [matchAt_bare X hne hX]
  simp [scanF_nil]

theorem scan_single_piped (X Y : Str) (hXne : X ≠ [])
    (hX : ∀ c ∈ X, linkChar c = true) (hYne : Y ≠ [])
    (hY : ∀ c ∈ Y, notRBracket c = true) :
    scan ('*' :: ' ' :: '[' :: '[' :: (X ++ '|' :: (Y ++ [']', ']']))) =
      [(X, some Y)] := by
  unfold scan
  rw [List.length_cons]
  simp only [scanF]
  rw [matchAt_piped X Y hXne hX hYne hY]
  simp [scanF_nil]

theorem containsSub_false_subIndex (l pat : Str)
    (h : containsSub l pat = false) : subIndex l pat = none := by
  unfold containsSub at h
  cases hh : subIndex l pat with
  | none => rfl
  | some i => rw [hh] at h; simp at h

/-- Claim C5: a bare bullet link `* [[X]]` yields the single entry
`(trim X, trim X)` and a piped bullet link `* [[X|Y]]` yields the single
entry `(trim X, trim Y)`, for every well-formed title `X` (non-empty,
containing neither `]` nor `|`) and display text `Y` (non-empty,
containing no `]`), provided the text does not accidentally contain the
extinct-section marker. -/
theorem parseBreedList_link_forms (X Y : Str) (hXne : X ≠ [])
    (hX : ∀ c ∈ X, linkChar c = true) (hYne : Y ≠ [])
    (hY : ∀ c ∈ Y, notRBracket c = true)
    (hm1 : containsSub ('*' :: ' ' :: '[' :: '[' :: (X ++ [']', ']']))
      extinctMarker = false)
    (hm2 : containsSub ('*' :: ' ' :: '[' :: '[' :: (X ++ '|' :: (Y ++ [']', ']'])))
      extinctMarker = false) :
    parseBreedListWikitext ('*' :: ' ' :: '[' :: '[' :: (X ++ [']', ']'])) =
      [(jsTrim X, jsTrim X)] ∧
    parseBreedListWikitext
        ('*' :: ' ' :: '[' :: '[' :: (X ++ '|' :: (Y ++ [']', ']']))) =
      [(jsTrim X, jsTrim Y)] := by
  constructor
  · unfold parseBreedListWikitext
    rw [containsSub_false_subIndex _ _ hm1]
    simp [scan_single_bare X hXne hX, buildFirstWins, setIfAbsent, alookup,
      displayOf]
  · unfold parseBreedListWikitext
    rw [containsSub_false_subIndex _ _ hm2]
    simp [scan_single_piped X Y hXne hX hYne hY, buildFirstWins, setIfAbsent,
      alookup, displayOf, hYne]

/-- Witness for C5 at concrete link texts with surrounding whitespace. -/
theorem parseBreedList_link_forms_witness :
    parseBreedListWikitext
        ('*' :: ' ' :: '[' :: '[' :: (" Akita (dog) ".toList ++ [']', ']'])) =
      [("Akita (dog)".toList, "Akita (dog)".toList)] ∧
    parseBreedListWikitext
        ('*' :: ' ' :: '[' :: '[' ::
          (" Akita (dog) ".toList ++ '|' :: (" Akita ".toList ++ [']', ']']))) =
      [("Akita (dog)".toList, "Akita".toList)] := by
  have h := parseBreedList_link_forms " Akita (dog) ".toList " Akita ".toList
    (by decide) (by decide) (by decide) (by decide) (by decide) (by decide)
  exact ⟨h.1.trans (by decide), h.2.trans (by decide)⟩

/-! Section: Claims C4, C9 and C10 — the Wikidata parser -/

theorem isPrefixOf_append_self (pat r : Str) :
    pat.isPrefixOf (pat ++ r) = true := by
  induction pat with
  | nil => simp [List.isPrefixOf]
  | cons c cs ih => simp [List.isPrefixOf, ih]

theorem subIndex_append_self (pat r : Str) : subIndex (pat ++ r) pat = some 0 := by
  have h := isPrefixOf_append_self pat r
  unfold subIndex
  cases hl : pat ++ r with
  | nil =>
    rw [hl] at h
    simp [subIndexAux, h]
  | cons c cs =>
    rw [hl] at h
    simp [subIndexAux, h]

theorem jsReplaceFirst_of_head (pat rest rep : Str) :
    jsReplaceFirst (pat ++ rest) pat rep = rep ++ rest := by
  unfold jsReplaceFirst
  rw [subIndex_append_self]
  simp

theorem jsReplaceFirst_no_occurrence (l pat rep : Str)
    (h : containsSub l pat = false) : jsReplaceFirst l pat rep = l := by
  unfold jsReplaceFirst
  rw [containsSub_false_subIndex _ _ h]

theorem jsSplit_no_sep (l sep : Str) (h : containsSub l sep = false) :
    jsSplit l sep = [l] := by
  unfold jsSplit
  simp [splitF, containsSub_false_subIndex l sep h]

theorem deriveKey_no_wiki (r : RawRecord)
    (h : containsSub r.article wikiSep = false) :
    deriveKey r = some undefinedStr := by
  unfold deriveKey
  rw [jsSplit_no_sep _ _ h]
  have hmap : undefinedStr.map usToSpace = undefinedStr := by decide
  simp [hmap]

theorem alookup_append {β : Type} (m1 m2 : List (Str × β)) (k : Str) :
    alookup (m1 ++ m2) k =
      match alookup m1 k with
      | some v => some v
      | none => alookup m2 k := by
  induction m1 with
  | nil => simp [alookup]
  | cons kv rest ih =>
    obtain ⟨k0, v0⟩ := kv
    by_cases h : k0 = k <;> simp [alookup, h, ih]

theorem alookup_foldl_some {β : Type} (es : List (Str × β)) :
    ∀ (acc : List (Str × β)) (k : Str) (v : β), alookup acc k = some v →
      alookup (es.foldl (fun m e => setIfAbsent m e.1 e.2) acc) k = some v := by
  induction es with
  | nil => intro acc k v h; simpa using h
  | cons e es ih =>
    intro acc k v h
    simp only [List.foldl_cons]
    apply ih
    unfold setIfAbsent
    by_cases hs : (alookup acc e.1).isSome
    · simp [hs, h]
    · simp only [hs, Bool.false_eq_true, if_false]
      rw [alookup_append, h]

theorem alookup_foldl_none {β : Type} (es : List (Str × β)) :
    ∀ (acc : List (Str × β)) (k : Str), (∀ e ∈ es, e.1 ≠ k) →
      alookup acc k = none →
      alookup (es.foldl (fun m e => setIfAbsent m e.1 e.2) acc) k = none := by
  induction es with
  | nil => intro acc k _ h; simpa using h
  | cons e es ih =>
    intro acc k hne h
    simp only [List.foldl_cons]
    apply ih _ _ (fun x hx => hne x (by simp [hx]))
    have hek : e.1 ≠ k := hne e (by simp)
    unfold setIfAbsent
    by_cases hs : (alookup acc e.1).isSome
    · simp [hs, h]
    · simp only [hs, Bool.false_eq_true, if_false]
      rw [alookup_append, h]
      simp [alookup, hek]

theorem alookup_setIfAbsent_self {β : Type} (m : List (Str × β)) (k : Str)
    (v : β) (h : alookup m k = none) : alookup (setIfAbsent m k v) k = some v := by
  unfold setIfAbsent
  rw [h]
  simp [alookup_append, h, alookup]

theorem alookup_buildFirstWins_first {β : Type} (es1 es2 : List (Str × β))
    (k : Str) (v : β) (h : ∀ e ∈ es1, e.1 ≠ k) :
    alookup (buildFirstWins (es1 ++ (k, v) :: es2)) k = some v := by
  unfold buildFirstWins
  rw [List.foldl_append]
  have hnone : alookup (es1.foldl (fun m e => setIfAbsent m e.1 e.2) []) k = none :=
    alookup_foldl_none es1 [] k h rfl
  simp only [List.foldl_cons]
  exact alookup_foldl_some es2 _ k v (alookup_setIfAbsent_self _ k v hnone)

theorem parseWikidataGo_append (xs ys : List RawRecord) :
    ∀ m, parseWikidataGo m (xs ++ ys) =
      (parseWikidataGo m xs).bind fun m1 => parseWikidataGo m1 ys := by
  induction xs with
  | nil => intro m; simp [parseWikidataGo]
  | cons r rs ih =>
    intro m
    simp only [List.cons_append, parseWikidataGo]
    cases deriveKey r with
    | none => simp
    | some k => simp [ih]

theorem parseWikidataGo_skip (k : Str) :
    ∀ (post : List RawRecord) (m0 m : List (Str × BreedRecord)),
      (∀ r' ∈ post, deriveKey r' ≠ some k) →
      parseWikidataGo m0 post = some m → alookup m k = alookup m0 k := by
  intro post
  induction post with
  | nil =>
    intro m0 m _ hgo
    simp [parseWikidataGo] at hgo
    rw [hgo]
  | cons r' rs ih =>
    intro m0 m hne hgo
    simp only [parseWikidataGo] at hgo
    cases hd : deriveKey r' with
    | none => rw [hd] at hgo; simp at hgo
    | some k' =>
      rw [hd] at hgo
      have hk : k' ≠ k := by
        intro he
        exact hne r' (by simp) (he ▸ hd)
      have := ih (assocSet m0 k' (entryOf r')) m
        (fun x hx => hne x (by simp [hx])) hgo
      rw [this, alookup_assocSet]
      simp [hk]

/-- Claim C9: in `parseWikidataResults` a later record deriving the same
article-title key overwrites the earlier entry (`Map.set` semantics), the
opposite of the extractor's first-occurrence-wins rule: in the extractor's
map construction the first entry for a key is the one kept. -/
theorem parseWikidata_last_wins :
    (∀ (pre post : List RawRecord) (r : RawRecord) (k : Str)
        (m : List (Str × BreedRecord)),
      deriveKey r = some k →
      (∀ r' ∈ post, deriveKey r' ≠ some k) →
      parseWikidataResults (pre ++ r :: post) = some m →
      alookup m k = some (entryOf r)) ∧
    (∀ (es1 es2 : List (Str × Str)) (k v : Str),
      (∀ e ∈ es1, e.1 ≠ k) →
      alookup (buildFirstWins (es1 ++ (k, v) :: es2)) k = some v) := by
  constructor
  · intro pre post r k m hk hpost hparse
    unfold parseWikidataResults at hparse
    rw [parseWikidataGo_append] at hparse
    cases hpre : parseWikidataGo [] pre with
    | none => rw [hpre] at hparse; simp at hparse
    | some m1 =>
      rw [hpre] at hparse
      simp only [Option.bind_some, parseWikidataGo, hk] at hparse
      rw [parseWikidataGo_skip k post _ m hpost hparse, alookup_assocSet]
      simp
  · intro es1 es2 k v h
    exact alookup_buildFirstWins_first es1 es2 k v h

/-- Witness for C9: two records deriving the key `"Pug"`; the second one's
label and origin end up in the map, and in the extractor's construction
the first of two entries with key `"A"` is kept. -/
theorem parseWikidata_last_wins_witness :
    alookup
        [("Pug".toList,
          ({ name := "Pug 2".toList, origin := "B".toList, imageURL := [] } :
            BreedRecord))]
        "Pug".toList =
      some (entryOf
        { article := "https://en.wikipedia.org/wiki/Pug".toList,
          breedLabel := "Pug 2".toList, origins := some "B".toList,
          image := none }) ∧
    alookup (buildFirstWins
        [("A".toList, "first".toList), ("A".toList, "second".toList)])
      "A".toList = some "first".toList := by
  refine ⟨?_, ?_⟩
  · exact parseWikidata_last_wins.1
      [{ article := "https://en.wikipedia.org/wiki/Pug".toList,
         breedLabel := "Pug 1".toList, origins := some "A".toList,
         image := none }]
      []
      { article := "https://en.wikipedia.org/wiki/Pug".toList,
        breedLabel := "Pug 2".toList, origins := some "B".toList,
        image := none }
      "Pug".toList
      [("Pug".toList,
        { name := "Pug 2".toList, origin := "B".toList, imageURL := [] })]
      (by decide) (by simp) (by decide)
  · exact parseWikidata_last_wins.2 [] [("A".toList, "second".toList)]
      "A".toList "first".toList (by simp)

/-- Claim C10: `parseWikidataResults` is total on records whose article
URL contains no `/wiki/` segment — no error is raised — and for such a
record the derived key is the literal string "undefined" (the JavaScript
string coercion of the missing split segment). -/
theorem parseWikidata_undefined_key (bs : List RawRecord) (r : RawRecord)
    (hbs : ∀ x ∈ bs, containsSub x.article wikiSep = false)
    (hr : containsSub r.article wikiSep = false) :
    (parseWikidataResults bs).isSome = true ∧
    parseWikidataResults [r] = some [(undefinedStr, entryOf r)] := by
  constructor
  · unfold parseWikidataResults
    have hgo : ∀ (xs : List RawRecord) (m : List (Str × BreedRecord)),
        (∀ x ∈ xs, containsSub x.article wikiSep = false) →
        (parseWikidataGo m xs).isSome = true := by
      intro xs
      induction xs with
      | nil => intro m _; simp [parseWikidataGo]
      | cons x xs ih =>
        intro m hx
        simp only [parseWikidataGo, deriveKey_no_wiki x (hx x (by simp))]
        exact ih _ fun y hy => hx y (by simp [hy])
    exact hgo bs [] hbs
  · simp [parseWikidataResults, parseWikidataGo, deriveKey_no_wiki r hr,
      assocSet]

/-- Witness for C10 at a concrete record with no `/wiki/` in its URL. -/
theorem parseWikidata_undefined_key_witness :
    (parseWikidataResults []).isSome = true ∧
    parseWikidataResults
        [{ article := "https://example.org/item/42".toList,
           breedLabel := "X".toList, origins := none, image := none }] =
      some [(undefinedStr,
        entryOf
          { article := "https://example.org/item/42".toList,
            breedLabel := "X".toList, origins := none, image := none })] :=
  parseWikidata_undefined_key []
    { article := "https://example.org/item/42".toList,
      breedLabel := "X".toList, origins := none, image := none }
    (by simp) (by decide)

/-- Claim C4 (amended): in `parseWikidataResults` an image URL beginning
with `http://` is rewritten to begin with `https://` with the remainder
unchanged (the first occurrence of the pattern is the leading scheme
token); an image URL containing no occurrence of `http://` at all — in
particular a typical `https://` URL — passes through unchanged.  (The
source's `.replace` rewrites the first occurrence anywhere, so a secure
URL that embeds `http://` later is not left unchanged; see the
counterexample.) -/
theorem parseWikidata_image_scheme (r : RawRecord) (k : Str)
    (e : BreedRecord) (h : parseWikidataResults [r] = some [(k, e)]) :
    (∀ rest : Str, r.image = some (httpPat ++ rest) →
      e.imageURL = httpsRep ++ rest) ∧
    (containsSub (r.image.getD []) httpPat = false →
      e.imageURL = r.image.getD []) := by
  have he : e = entryOf r := by
    unfold parseWikidataResults parseWikidataGo at h
    cases hd : deriveKey r with
    | none => rw [hd] at h; simp at h
    | some k0 =>
      rw [hd] at h
      simp [parseWikidataGo, assocSet] at h
      exact h.2.symm
  subst he
  constructor
  · intro rest him
    show jsReplaceFirst (r.image.getD []) httpPat httpsRep = httpsRep ++ rest
    rw [him]
    simp [jsReplaceFirst_of_head]
  · intro hno
    exact jsReplaceFirst_no_occurrence _ _ _ hno

/-- Witness for C4 at a concrete record whose image URL starts with
`http://`. -/
theorem parseWikidata_image_scheme_witness :
    ({ name := "Pug".toList, origin := "China".toList,
       imageURL := "https://x/p.jpg".toList } : BreedRecord).imageURL =
      httpsRep ++ "x/p.jpg".toList :=
  (parseWikidata_image_scheme
    { article := "https://en.wikipedia.org/wiki/Pug".toList,
      breedLabel := "Pug".toList, origins := some "China".toList,
      image := some "http://x/p.jpg".toList }
    "Pug".toList
    { name := "Pug".toList, origin := "China".toList,
      imageURL := "https://x/p.jpg".toList }
    (by decide)).1 "x/p.jpg".toList (by decide)

/-- Claim C4, counterexample to the claim as frozen: an image URL that
already uses the secure scheme (`https://` is its prefix) but embeds
`http://` later is **not** passed through unchanged — the embedded
occurrence is rewritten, because `.replace` substitutes the first
occurrence anywhere in the string, not only a leading scheme token. -/
theorem parseWikidata_https_modified_cx :
    parseWikidataResults
        [{ article := "https://en.wikipedia.org/wiki/Pug".toList,
           breedLabel := "Pug".toList, origins := none,
           image := some "https://e.org/?u=http://x".toList }] =
      some [("Pug".toList,
        { name := "Pug".toList, origin := [],
          imageURL := "https://e.org/?u=https://x".toList })] ∧
    "https://e.org/?u=https://x".toList ≠ "https://e.org/?u=http://x".toList ∧
    "https://".toList.isPrefixOf "https://e.org/?u=http://x".toList = true := by
  decide

/-! Section: Claims C6 and C7 — the alias resolver -/

theorem alookup_stepResolve (normalized redirects acc : List (Str × Str))
    (b t : Str) :
    alookup (stepResolve normalized redirects acc b) t =
      if b = t ∧ resolveTitle normalized redirects t ≠ t
      then some (resolveTitle normalized redirects t)
      else alookup acc t := by
  unfold stepResolve
  by_cases hrb : resolveTitle normalized redirects b = b
  · rw [if_neg (by simp [hrb])]
    by_cases hbt : b = t
    · subst hbt
      simp [hrb]
    · simp [hbt]
  · rw [if_pos hrb, alookup_assocSet]
    by_cases hbt : b = t
    · subst hbt
      simp [hrb]
    · simp [hbt]

theorem resolveBatch_fold (normalized redirects : List (Str × Str)) :
    ∀ (batch : List Str) (acc : List (Str × Str)) (t : Str),
      alookup (batch.foldl (stepResolve normalized redirects) acc) t =
      if t ∈ batch ∧ resolveTitle normalized redirects t ≠ t
      then some (resolveTitle normalized redirects t)
      else alookup acc t := by
  intro batch
  induction batch with
  | nil => intro acc t; simp
  | cons b bs ih =>
    intro acc t
    simp only [List.foldl_cons]
    rw [ih, alookup_stepResolve]
    by_cases hrt : resolveTitle normalized redirects t = t
    · simp [hrt]
    · by_cases hmem : t ∈ bs
      · simp [hrt, hmem]
      · by_cases htb : b = t
        · subst htb
          simp [hrt, hmem]
        · have htb2 : ¬ t = b := fun h => htb h.symm
          simp [hrt, hmem, htb, htb2]

/-- Claim C6: `resolveRedirectBatch` resolves each title by composing the
optional normalization mapping with the optional redirect mapping (the
normalization result feeds the redirect lookup), and its output map binds
a title exactly when the title is in the batch and its resolved form
differs from it; identity resolutions are omitted. -/
theorem resolveRedirectBatch_spec (batch : List Str)
    (normalizedList redirectsList : Option (List (Str × Str))) (t : Str) :
    alookup (resolveRedirectBatch batch normalizedList redirectsList) t =
      if t ∈ batch ∧
          resolveTitle (buildPairs normalizedList) (buildPairs redirectsList) t ≠ t
      then some (resolveTitle (buildPairs normalizedList)
        (buildPairs redirectsList) t)
      else none := by
  have h := resolveBatch_fold (buildPairs normalizedList)
    (buildPairs redirectsList) batch [] t
  simp only [alookup] at h
  exact h

theorem chunkF_fuel {α : Type} :
    ∀ (f g : Nat) (l : List α), l.length ≤ f → l.length ≤ g →
      chunkF f l = chunkF g l := by
  intro f
  induction f with
  | zero =>
    intro g l hf _
    have : l = [] := List.eq_nil_of_length_eq_zero (Nat.le_zero.mp hf)
    subst this
    cases g <;> rfl
  | succ f ih =>
    intro g l hf hg
    cases l with
    | nil => cases g <;> rfl
    | cons x xs =>
      cases g with
      | zero => simp at hg
      | succ g =>
        simp only [chunkF]
        congr 1
        apply ih
        · simp only [List.length_drop, List.length_cons]
          simp only [List.length_cons] at hf
          omega
        · simp only [List.length_drop, List.length_cons]
          simp only [List.length_cons] at hg
          omega

theorem chunk50_step {α : Type} (l : List α) (h : l ≠ []) :
    chunk50 l = l.take 50 :: chunk50 (l.drop 50) := by
  cases l with
  | nil => exact absurd rfl h
  | cons x xs =>
    unfold chunk50
    rw [List.length_cons]
    simp only [chunkF]
    congr 1
    apply chunkF_fuel
    · simp only [List.length_drop, List.length_cons]
      omega
    · exact Nat.le_refl _

/-- Claim C7: `resolveRedirects` splits the titles into consecutive chunks
of at most 50 and issues one batch call per chunk: 101 titles produce
exactly the chunk sizes 50, 50, 1 (hence 3 calls); 0 titles produce no
chunks (0 calls) and an empty redirect map. -/
theorem resolveRedirects_chunking (titles1 titles2 : List Str)
    (respond : List Str → List (Str × Str))
    (h1 : titles1.length = 101) (h2 : titles2.length = 0) :
    (chunk50 titles1).map List.length = [50, 50, 1] ∧
    chunk50 titles2 = [] ∧
    resolveRedirects titles2 respond = [] := by
  refine ⟨?_, ?_, ?_⟩
  · have hne1 : titles1 ≠ [] := by
      intro h; rw [h] at h1; simp at h1
    rw [chunk50_step _ hne1]
    have hd1 : (titles1.drop 50).length = 51 := by simp [h1]
    have hne2 : titles1.drop 50 ≠ [] := by
      intro h; rw [h] at hd1; simp at hd1
    rw [chunk50_step _ hne2]
    have hd2 : ((titles1.drop 50).drop 50).length = 1 := by simp [h1]
    have hne3 : (titles1.drop 50).drop 50 ≠ [] := by
      intro h; rw [h] at hd2; simp at hd2
    rw [chunk50_step _ hne3]
    have hd3 : ((titles1.drop 50).drop 50).drop 50 = [] :=
      List.eq_nil_of_length_eq_zero (by simp [h1])
    rw [hd3]
    simp [chunk50, chunkF, List.length_take, h1]
  · have h : titles2 = [] := List.eq_nil_of_length_eq_zero h2
    rw [h]; rfl
  · have h : titles2 = [] := List.eq_nil_of_length_eq_zero h2
    rw [h]; rfl

/-- Witness for C7 at 101 concrete titles and at the empty title list. -/
theorem resolveRedirects_chunking_witness :
    (chunk50 (List.replicate 101 "a".toList)).map List.length = [50, 50, 1] ∧
    chunk50 ([] : List Str) = [] ∧
    resolveRedirects [] (fun _ => []) = [] :=
  resolveRedirects_chunking (List.replicate 101 "a".toList) []
    (fun _ => []) (by simp) rfl

/-! Section: Claim C8 — the orchestrator -/

theorem mapME_error {ε α β : Type} (f : α → Except ε β) :
    ∀ (l : List α) (b : α), b ∈ l → isOkE (f b) = false →
      isOkE (mapME f l) = false := by
  intro l
  induction l with
  | nil => intro b hb; simp at hb
  | cons x xs ih =>
    intro b hb hf
    rcases List.mem_cons.mp hb with h | h
    · subst h
      unfold mapME
      cases hx : f b with
      | error e => simp [isOkE]
      | ok y => rw [hx] at hf; simp [isOkE] at hf
    · unfold mapME
      cases hx : f x with
      | error e => simp [isOkE]
      | ok y =>
        have := ih b h hf
        cases hm : mapME f xs with
        | error e => simp [isOkE]
        | ok ys => rw [hm] at this; simp [isOkE] at this

/-- Claim C8: if the source-A fetch, the source-B fetch, or any
alias-resolution batch call fails, `main` propagates that failure and
never invokes the write capability (no artifact is written); conversely, a
write happens only when every prior step succeeded, and then exactly the
merged list is written. -/
theorem main_failure_no_write {ε : Type} (wp : Except ε (List (Str × Str)))
    (wd : Except ε (List (Str × BreedRecord)))
    (respond : List Str → Except ε (List (Str × Str)))
    (lc : Str → Str → Int) :
    (∀ e, wp = .error e → mainModel wp wd respond lc = (.error e, [])) ∧
    (∀ e w, wp = .ok w → wd = .error e →
      mainModel wp wd respond lc = (.error e, [])) ∧
    (∀ w, wp = .ok w →
      (∃ b ∈ chunk50 (w.map Prod.fst), isOkE (respond b) = false) →
      isOkE (mainModel wp wd respond lc).1 = false ∧
      (mainModel wp wd respond lc).2 = []) ∧
    ((mainModel wp wd respond lc).2 ≠ [] →
      ∃ breeds, mainModel wp wd respond lc = (.ok breeds, [breeds])) := by
  refine ⟨?_, ?_, ?_, ?_⟩
  · intro e h
    rw [h]
    rfl
  · intro e w hw hd
    rw [hw, hd]
    rfl
  · intro w hw hfail
    rcases hfail with ⟨b, hb, hfb⟩
    rw [hw]
    cases wd with
    | error e => exact ⟨rfl, rfl⟩
    | ok d =>
      have hmap : isOkE (mapME respond (chunk50 (w.map Prod.fst))) = false :=
        mapME_error respond _ b hb hfb
      simp only [mainModel]
      unfold resolveRedirectsE
      cases hm : mapME respond (chunk50 (w.map Prod.fst)) with
      | error e => exact ⟨rfl, rfl⟩
      | ok results => rw [hm] at hmap; simp [isOkE] at hmap
  · intro hne
    cases wp with
    | error e => exact absurd rfl hne
    | ok w =>
      cases wd with
      | error e => exact absurd rfl hne
      | ok d =>
        simp only [mainModel] at hne ⊢
        cases hr : resolveRedirectsE (w.map Prod.fst) respond with
        | error e => rw [hr] at hne; exact absurd rfl hne
        | ok rm => exact ⟨mergeBreedData w d rm lc, rfl⟩

/-- Witness for C8: a failing source-A fetch aborts the run with that
error and writes nothing. -/
theorem main_failure_no_write_witness :
    mainModel (Except.error 0 : Except Nat (List (Str × Str)))
      (.ok []) (fun _ => .ok []) lcByte = (.error 0, []) :=
  (main_failure_no_write (Except.error 0) (.ok []) (fun _ => .ok []) lcByte).1
    0 rfl
